import Mathlib

/-!
Shallow embedding of `src/InstaMath/fixInfoPlist.py`.

The script works on the text of an Xcode `project.pbxproj` file.  We model
file contents as lists of characters (`Str`), the file system as a partial
map from paths to contents, and the script as a pure function from a file
system to a final file system together with the printed output and the exit
status.  Every Python string operation used by the script is translated to
an executable Lean function on `Str`.
-/

/-- File contents and paths, modelled as lists of characters. -/
abbrev Str := List Char

/-- The hardcoded path of the target file (line 7 of the script). -/
def pbxprojPath : Str := "/Users/admin/Desktop/InstaMath/InstaMath.xcodeproj/project.pbxproj".data

/-- `backup_path = pbxproj_path + ".bak"` (line 15). -/
def backupPath : Str := pbxprojPath ++ ".bak".data

/-- The resource name searched for by the script. -/
def plistName : Str := "InstaMathInfo.plist".data

/-- The literal part of the regex before the lazy group (line 25):
`/* Copy Bundle Resources */ = \x7b`. -/
def sectionStart : Str := "/* Copy Bundle Resources */ = \x7b".data

/-- The literal closing the regex match: `\x7d;`. -/
def sectionCloser : Str := "\x7d;".data

/-- Python substring test `n in h` (scan every position for a prefix match). -/
def containsSub : Str → Str → Bool
  | n, [] => n.isEmpty
  | n, c :: t => n.isPrefixOf (c :: t) || containsSub n t

/-- Consume characters up to and including the first occurrence of
`\x7d;`; return the consumed chunk and the remainder.  This is the lazy
`(.*?)\x7d;` part of the regex under `re.DOTALL`. -/
def takeUntilCloser : Str → Option (Str × Str)
  | [] => none
  | c :: t =>
    if sectionCloser.isPrefixOf (c :: t) then
      some (sectionCloser, List.drop sectionCloser.length (c :: t))
    else
      match takeUntilCloser t with
      | some (chunk, rest) => some (c :: chunk, rest)
      | none => none

/-- `re.finditer` for the pattern of line 25: scan left to right; at each
position try the literal, then the lazy body up to the first `\x7d;`;
matches do not overlap, and after a failed attempt scanning resumes at the
next character.  Fuel-indexed so that the function is structural; the
wrapper passes the length of the string, which suffices because every
recursive call is on a strictly shorter list. -/
def findSectionsF : Nat → Str → List Str
  | 0, _ => []
  | _ + 1, [] => []
  | f + 1, c :: t =>
    if sectionStart.isPrefixOf (c :: t) then
      match takeUntilCloser (List.drop sectionStart.length (c :: t)) with
      | some (chunk, rest) => (sectionStart ++ chunk) :: findSectionsF f rest
      | none => findSectionsF f t
    else findSectionsF f t

/-- All matches of the Copy Bundle Resources regex, in order (lines 24-26). -/
def findSections (s : Str) : List Str := findSectionsF s.length s

/-- Python `s.split('\n')` (line 37). -/
def splitLines : Str → List Str
  | [] => [[]]
  | c :: t =>
    if c = '\n' then [] :: splitLines t
    else
      match splitLines t with
      | [] => [[c]]
      | h :: r => (c :: h) :: r

/-- Python `sep.join l`. -/
def joinWith (sep : Str) : List Str → Str
  | [] => []
  | [x] => x
  | x :: y :: r => x ++ sep ++ joinWith sep (y :: r)

/-- Python `'\n'.join l` (line 48). -/
def joinLines : List Str → Str := joinWith ['\n']

/-- The whitespace characters stripped by Python `str.strip()`. -/
def isPySpace (c : Char) : Bool :=
  c = ' ' || c = '\t' || c = '\n' || c = '\r' || c = '\x0b' || c = '\x0c'

/-- Python `s.strip()`: drop whitespace from both ends. -/
def stripWs (s : Str) : Str :=
  ((s.dropWhile isPySpace).reverse.dropWhile isPySpace).reverse

/-- Python `s.rstrip(',')`: drop every trailing comma. -/
def rstripCommas (s : Str) : Str :=
  (s.reverse.dropWhile (fun c => c = ',')).reverse

/-- The test of line 41: `lines[i-1].strip().endswith(',')`. -/
def endsWithComma (s : Str) : Bool := (stripWs s).getLast? = some ','

/-- The edit applied to the line preceding the removed one (lines 41-43):
if its stripped form ends with a comma, remove the trailing commas of the
raw line, otherwise leave it unchanged. -/
def fixPrev (p : Str) : Str := if endsWithComma p then rstripCommas p else p

/-- The loop of lines 38-52 from index 1 on, with `prev` the line before
the current one: on the first line containing `InstaMathInfo.plist`, fix
`prev`, drop the line, and stop.  `none` when no line matches. -/
def removeLineAfter (prev : Str) : List Str → Option (List Str)
  | [] => none
  | l :: rest =>
    if containsSub plistName l then some (fixPrev prev :: rest)
    else (removeLineAfter l rest).map (fun r => prev :: r)

/-- The loop of lines 38-52: remove the first line containing
`InstaMathInfo.plist` (no comma fix when it is line 0). -/
def removeLine : List Str → Option (List Str)
  | [] => none
  | l :: rest =>
    if containsSub plistName l then some rest
    else removeLineAfter l rest

/-- Apply `fixPrev` to the last element of a list (used to state what the
removal loop does to the lines before the removed one). -/
def commaFixLast : List Str → List Str
  | [] => []
  | [p] => [fixPrev p]
  | p :: q :: r => p :: commaFixLast (q :: r)

/-- Python `s.replace(old, new)` (line 49): replace every non-overlapping
occurrence of `old`, scanning left to right.  Fuel-indexed for structural
recursion; the wrapper passes `s.length + 1`, enough because every
recursive call is on a strictly shorter list. -/
def replaceAllF : Nat → Str → Str → Str → Str
  | 0, s, _, _ => s
  | f + 1, s, old, new =>
    if old = [] then
      match s with
      | [] => new
      | c :: t => new ++ c :: replaceAllF f t old new
    else
      match s with
      | [] => []
      | c :: t =>
        if old.isPrefixOf (c :: t) then
          new ++ replaceAllF f (List.drop old.length (c :: t)) old new
        else c :: replaceAllF f t old new

/-- Python `s.replace(old, new)`. -/
def replaceAll (s old new : Str) : Str := replaceAllF (s.length + 1) s old new

/-- Greedy left-to-right decomposition of `s` at the non-overlapping
occurrences of `old` (the chunks of Python `s.split(old)`), with the same
scanning discipline as `replaceAllF`. -/
def splitOnSubF : Nat → Str → Str → List Str
  | 0, s, _ => [s]
  | f + 1, s, old =>
    if old = [] then [s]
    else
      match s with
      | [] => [[]]
      | c :: t =>
        if old.isPrefixOf (c :: t) then
          [] :: splitOnSubF f (List.drop old.length (c :: t)) old
        else
          match splitOnSubF f t old with
          | [] => [[c]]
          | h :: r => (c :: h) :: r

/-- The chunks of `s` between the occurrences of `old`. -/
def splitOnSub (s old : Str) : List Str := splitOnSubF (s.length + 1) s old

/-- `f"Error: \x7bpbxproj_path\x7d not found"` (line 11). -/
def errMsg : Str := "Error: ".data ++ pbxprojPath ++ " not found".data

/-- `f"Created backup at \x7bbackup_path\x7d"` (line 17). -/
def createdMsg : Str := "Created backup at ".data ++ backupPath

/-- The message of line 34. -/
def foundMsg : Str := "Found InstaMathInfo.plist in Copy Bundle Resources".data

/-- The message of line 51. -/
def removedMsg : Str := "Removed InstaMathInfo.plist from Copy Bundle Resources".data

/-- The message of line 58. -/
def successMsg : Str := "Successfully updated project.pbxproj".data

/-- The message of line 60. -/
def noChangesMsg : Str := "No changes were made".data

/-- One iteration of the loop of lines 31-52, acting on the state
`(new_content, modified, printed lines)`. -/
def stepSection (acc : Str × Bool × List Str) (sec : Str) : Str × Bool × List Str :=
  if containsSub plistName sec then
    match removeLine (splitLines sec) with
    | some ls =>
      (replaceAll acc.1 sec (joinLines ls), true, acc.2.2 ++ [foundMsg, removedMsg])
    | none => (acc.1, acc.2.1, acc.2.2 ++ [foundMsg])
  else acc

/-- The loop of lines 31-52 over all matched sections, starting from
`new_content = content`, `modified = False` (lines 28-29). -/
def patchRun (content : Str) : Str × Bool × List Str :=
  (findSections content).foldl stepSection (content, false, [])

/-- The observable result of a run: final file system, printed lines in
order, exit status. -/
structure RunResult where
  fs : Str → Option Str
  stdout : List Str
  exitCode : Nat

/-- The whole script (lines 10-60) as a function of the initial file
system: missing file reports an error and exits with status 1; otherwise
the backup is written, the content patched, and the target rewritten only
when `modified` is set. -/
def runScript (fs : Str → Option Str) : RunResult :=
  match fs pbxprojPath with
  | none => ⟨fs, [errMsg], 1⟩
  | some content =>
    let fs1 : Str → Option Str := fun p => if p = backupPath then some content else fs p
    let r := patchRun content
    if r.2.1 then
      ⟨fun p => if p = pbxprojPath then some r.1 else fs1 p,
        createdMsg :: r.2.2 ++ [successMsg], 0⟩
    else
      ⟨fs1, createdMsg :: r.2.2 ++ [noChangesMsg], 0⟩

/-! ### Concrete inputs used by witnesses and counterexamples -/

/-- A Copy Bundle Resources section whose body mentions the plist on two
different lines. -/
def contentTwo : Str :=
  "/* Copy Bundle Resources */ = \x7b\n\ta InstaMathInfo.plist,\n\tb InstaMathInfo.plist,\n\x7d;".data

/-- A section with the plist on exactly one line, preceded by a line that
ends with a comma. -/
def sectionOne : Str :=
  "/* Copy Bundle Resources */ = \x7b\n\ta,\n\tx InstaMathInfo.plist\n\x7d;".data

/-- A file system holding `contentTwo` at the target path and nothing else. -/
def fsTwo : Str → Option Str :=
  fun p => if p = pbxprojPath then some contentTwo else none

/-- A file system holding `sectionOne` at the target path and nothing else. -/
def fsOne : Str → Option Str :=
  fun p => if p = pbxprojPath then some sectionOne else none

/-- A file system agreeing with `fsOne` at the target path but differing
elsewhere. -/
def fsOne' : Str → Option Str :=
  fun p => if p = pbxprojPath then some sectionOne else some "z".data

/-- A file system whose target file contains no Copy Bundle Resources
section at all. -/
def fsPlain : Str → Option Str :=
  fun p => if p = pbxprojPath then some "hello world".data else none

/-- The empty file system: the target file does not exist. -/
def fsNone : Str → Option Str := fun _ => none

/-! ### Helper lemmas -/

theorem isPrefixOf_iff_exists : ∀ a b : Str, (a.isPrefixOf b) = true ↔ ∃ t, b = a ++ t := by
  intro a
  induction a with
  | nil => intro b; simp [List.isPrefixOf]
  | cons x xs ih =>
    intro b
    cases b with
    | nil =>
      simp [List.isPrefixOf]
    | cons y ys =>
      simp only [List.isPrefixOf, Bool.and_eq_true, beq_iff_eq, ih ys]
      constructor
      · rintro ⟨rfl, t, rfl⟩
        exact ⟨t, rfl⟩
      · rintro ⟨t, h⟩
        injection h with h1 h2
        exact ⟨h1.symm, t, h2⟩

theorem containsSub_iff : ∀ n h : Str, containsSub n h = true ↔ ∃ s t, h = s ++ n ++ t := by
  intro n h
  induction h with
  | nil =>
    simp only [containsSub, List.isEmpty_iff]
    constructor
    · rintro rfl; exact ⟨[], [], rfl⟩
    · rintro ⟨s, t, h⟩
      rcases List.append_eq_nil.mp (List.append_eq_nil.mp h.symm).1 with ⟨_, h2⟩
      exact h2
  | cons c t ih =>
    simp only [containsSub, Bool.or_eq_true, isPrefixOf_iff_exists, ih]
    constructor
    · rintro (⟨u, hu⟩ | ⟨s, u, hu⟩)
      · exact ⟨[], u, by simp [hu]⟩
      · exact ⟨c :: s, u, by simp [hu]⟩
    · rintro ⟨s, u, hu⟩
      cases s with
      | nil => exact Or.inl ⟨u, by simpa using hu⟩
      | cons d s' =>
        injection hu with h1 h2
        exact Or.inr ⟨s', u, h2⟩

theorem containsSub_nil_of_ne {n : Str} (h : n ≠ []) : containsSub n [] = false := by
  cases n with
  | nil => exact absurd rfl h
  | cons c t => simp [containsSub]

theorem containsSub_append_left {n a : Str} (t : Str) (h : containsSub n a = true) :
    containsSub n (a ++ t) = true := by
  rcases (containsSub_iff n a).mp h with ⟨s, u, rfl⟩
  exact (containsSub_iff n _).mpr ⟨s, u ++ t, by simp⟩

theorem containsSub_append_or {n a b : Str} (h : containsSub n (a ++ b) = true) :
    containsSub n a = true ∨ containsSub n b = true ∨
      ∃ n₁ n₂, n = n₁ ++ n₂ ∧ n₂ ≠ [] ∧ (∃ s, a = s ++ n₁) ∧ ∃ t, b = n₂ ++ t := by
  rcases (containsSub_iff n _).mp h with ⟨s, u, hu⟩
  rw [List.append_assoc] at hu
  rcases List.append_eq_append_iff.mp hu with ⟨w, hw1, hw2⟩ | ⟨w, hw1, hw2⟩
  · -- s = a ++ w and b = w ++ (n ++ u) : the occurrence is inside b
    right; left
    exact (containsSub_iff n b).mpr ⟨w, u, by rw [hw2, List.append_assoc]⟩
  · -- a = s ++ w and n ++ u = w ++ b
    rcases List.append_eq_append_iff.mp hw2 with ⟨v, hv1, hv2⟩ | ⟨v, hv1, hv2⟩
    · -- w = n ++ v and u = v ++ b : the occurrence is inside a
      left
      exact (containsSub_iff n a).mpr ⟨s, v, by rw [hw1, hv1, List.append_assoc]⟩
    · -- n = w ++ v and b = v ++ u
      cases v with
      | nil =>
        left
        rw [List.append_nil] at hv1
        exact (containsSub_iff n a).mpr ⟨s, [], by simp [hw1, hv1]⟩
      | cons d v' =>
        right; right
        exact ⟨w, d :: v', hv1, by simp, ⟨s, hw1⟩, ⟨u, hv2⟩⟩

theorem containsSub_cons_elim {n : Str} {c : Char} {b : Str} (hne : n ≠ [])
    (hc : c ∉ n) (h : containsSub n (c :: b) = true) : containsSub n b = true := by
  rcases (containsSub_iff n _).mp h with ⟨s, u, hu⟩
  cases s with
  | nil =>
    cases n with
    | nil => exact absurd rfl hne
    | cons d n' =>
      injection hu with h1 h2
      exact absurd (h1 ▸ List.mem_cons_self d n') hc
  | cons d s' =>
    injection hu with h1 h2
    exact (containsSub_iff n b).mpr ⟨s', u, h2⟩

theorem splitLines_ne_nil : ∀ s : Str, splitLines s ≠ [] := by
  intro s
  cases s with
  | nil => simp [splitLines]
  | cons c t =>
    simp only [splitLines]
    split
    · simp
    · split <;> simp

theorem joinLines_splitLines : ∀ s : Str, joinLines (splitLines s) = s := by
  intro s
  induction s with
  | nil => rfl
  | cons c t ih =>
    simp only [splitLines]
    split
    · rename_i hc
      rcases hs : splitLines t with _ | ⟨h, r⟩
      · exact absurd hs (splitLines_ne_nil t)
      · rw [hs] at ih
        subst hc
        simp only [joinLines, joinWith, List.nil_append, List.singleton_append]
        rw [← joinLines, ih]
    · rcases hs : splitLines t with _ | ⟨h, r⟩
      · exact absurd hs (splitLines_ne_nil t)
      · rw [hs] at ih
        cases r with
        | nil =>
          simp only [joinLines, joinWith] at ih ⊢
          rw [ih]
        | cons h2 r2 =>
          simp only [joinLines, joinWith, List.cons_append] at ih ⊢
          rw [← List.cons_append, ← List.cons_append]
          rw [show (c :: h) ++ ['\n'] ++ joinWith ['\n'] (h2 :: r2)
                = c :: (h ++ ['\n'] ++ joinWith ['\n'] (h2 :: r2)) by simp]
          rw [ih]

theorem containsSub_joinLines {n : Str} (hne : n ≠ []) (hnl : '\n' ∉ n) :
    ∀ ls : List Str, containsSub n (joinLines ls) = true → ∃ l ∈ ls, containsSub n l = true := by
  intro ls
  induction ls with
  | nil =>
    intro h
    rw [joinLines, joinWith, containsSub_nil_of_ne hne] at h
    exact absurd h (by simp)
  | cons x r ih =>
    intro h
    cases r with
    | nil =>
      exact ⟨x, List.mem_cons_self x [], h⟩
    | cons y r' =>
      rw [joinLines, joinWith, ← joinLines] at h
      rcases containsSub_append_or h with hx | h2 | ⟨n₁, n₂, hn, hn₂, ⟨s2, hs2⟩, ⟨t2, ht2⟩⟩
      · -- the occurrence lies inside `x ++ ['\n']`
        rcases containsSub_append_or hx with hx' | hnl2 | ⟨m₁, m₂, hm, hm₂, ⟨s3, hs3⟩, ⟨t3, ht3⟩⟩
        · exact ⟨x, List.mem_cons_self x _, hx'⟩
        · have h4 := containsSub_cons_elim hne hnl hnl2
          rw [containsSub_nil_of_ne hne] at h4
          exact absurd h4 (by simp)
        · cases m₂ with
          | nil => exact absurd rfl hm₂
          | cons d m₂' =>
            injection ht3 with h1 _
            subst h1
            exact absurd (hm ▸ List.mem_append.mpr (Or.inr (List.mem_cons_self _ m₂'))) hnl
      · rcases ih h2 with ⟨l, hl, hcl⟩
        exact ⟨l, List.mem_cons_of_mem x hl, hcl⟩
      · -- an occurrence crossing the separator
        cases hr : n₁.reverse with
        | nil =>
          have hn₁ : n₁ = [] := by simpa using congrArg List.reverse hr
          subst hn₁
          rw [List.nil_append] at hn
          subst hn
          rcases ih ((containsSub_iff _ _).mpr ⟨[], t2, by simpa using ht2⟩) with ⟨l, hl, hcl⟩
          exact ⟨l, List.mem_cons_of_mem x hl, hcl⟩
        | cons c rt =>
          have hrev : n₁.reverse ++ s2.reverse = '\n' :: x.reverse := by
            have h5 := congrArg List.reverse hs2
            rw [List.reverse_append] at h5
            simpa using h5.symm
          rw [hr] at hrev
          injection hrev with hc _
          subst hc
          have hmem : '\n' ∈ n₁ := List.mem_reverse.mp (by rw [hr]; exact List.mem_cons_self _ _)
          exact absurd (hn ▸ List.mem_append.mpr (Or.inl hmem)) hnl


theorem rstripCommas_append : ∀ s : Str, ∃ t, s = rstripCommas s ++ t := by
  intro s
  refine ⟨(s.reverse.takeWhile (fun c => c = ',')).reverse, ?_⟩
  rw [rstripCommas, ← List.reverse_append, List.takeWhile_append_dropWhile, List.reverse_reverse]

theorem fixPrev_no_plist {p : Str} (h : containsSub plistName p = false) :
    containsSub plistName (fixPrev p) = false := by
  rw [fixPrev]
  split
  · rcases rstripCommas_append p with ⟨t, ht⟩
    cases hc : containsSub plistName (rstripCommas p) with
    | false => rfl
    | true =>
      have h2 := containsSub_append_left t hc
      rw [← ht, h] at h2
      exact absurd h2 (by simp)
  · exact h

theorem commaFixLast_no_plist : ∀ pre : List Str,
    (∀ x ∈ pre, containsSub plistName x = false) →
    ∀ x ∈ commaFixLast pre, containsSub plistName x = false := by
  intro pre
  induction pre with
  | nil => intro _ x hx; simp [commaFixLast] at hx
  | cons p rest ih =>
    intro hall x hx
    cases rest with
    | nil =>
      simp only [commaFixLast, List.mem_singleton] at hx
      subst hx
      exact fixPrev_no_plist (hall p (List.mem_cons_self _ _))
    | cons q r =>
      simp only [commaFixLast, List.mem_cons] at hx
      rcases hx with rfl | hx
      · exact hall x (List.mem_cons_self _ _)
      · exact ih (fun y hy => hall y (List.mem_cons_of_mem _ hy)) x hx

theorem commaFixLast_length : ∀ l : List Str, (commaFixLast l).length = l.length := by
  intro l
  induction l with
  | nil => rfl
  | cons p rest ih =>
    cases rest with
    | nil => rfl
    | cons q r => simpa [commaFixLast] using ih

theorem exists_first_decomp (P : Str → Bool) : ∀ ls : List Str, (∃ l ∈ ls, P l = true) →
    ∃ pre l post, ls = pre ++ l :: post ∧ (∀ x ∈ pre, P x = false) ∧ P l = true := by
  intro ls
  induction ls with
  | nil => rintro ⟨l, hl, _⟩; simp at hl
  | cons a rest ih =>
    rintro ⟨l, hl, hPl⟩
    cases hPa : P a with
    | true => exact ⟨[], a, rest, rfl, by simp, hPa⟩
    | false =>
      rcases List.mem_cons.mp hl with rfl | hl'
      · rw [hPl] at hPa; exact absurd hPa (by simp)
      · rcases ih ⟨l, hl', hPl⟩ with ⟨pre, l', post, heq, hpre, hPl'⟩
        refine ⟨a :: pre, l', post, by rw [heq]; simp, ?_, hPl'⟩
        intro x hx
        rcases List.mem_cons.mp hx with rfl | hx'
        · exact hPa
        · exact hpre x hx'

theorem removeLineAfter_spec : ∀ (pre : List Str) (prev l : Str) (post : List Str),
    (∀ x ∈ pre, containsSub plistName x = false) → containsSub plistName l = true →
    removeLineAfter prev (pre ++ l :: post) = some (commaFixLast (prev :: pre) ++ post) := by
  intro pre
  induction pre with
  | nil =>
    intro prev l post _ hl
    simp [removeLineAfter, hl, commaFixLast]
  | cons p rest ih =>
    intro prev l post hall hl
    have hp : containsSub plistName p = false := hall p (List.mem_cons_self _ _)
    rw [List.cons_append, removeLineAfter, if_neg (by simp [hp]),
      ih p l post (fun y hy => hall y (List.mem_cons_of_mem _ hy)) hl]
    cases rest with
    | nil => simp [commaFixLast]
    | cons q r => simp [commaFixLast]

theorem removeLine_spec : ∀ (pre : List Str) (l : Str) (post : List Str),
    (∀ x ∈ pre, containsSub plistName x = false) → containsSub plistName l = true →
    removeLine (pre ++ l :: post) = some (commaFixLast pre ++ post) := by
  intro pre l post hall hl
  cases pre with
  | nil => simp [removeLine, hl, commaFixLast]
  | cons p rest =>
    have hp : containsSub plistName p = false := hall p (List.mem_cons_self _ _)
    rw [List.cons_append, removeLine, if_neg (by simp [hp]),
      removeLineAfter_spec rest p l post (fun y hy => hall y (List.mem_cons_of_mem _ hy)) hl]

theorem dropWhile_append_all {α : Type} (q : α → Bool) (l₁ l₂ : List α)
    (h : ∀ x ∈ l₁, q x = true) :
    List.dropWhile q (l₁ ++ l₂) = List.dropWhile q l₂ := by
  rw [List.dropWhile_append, List.dropWhile_eq_nil_iff.mpr h]
  simp

theorem dropWhile_head_false {α : Type} (q : α → Bool) (c : α) (l : List α) (h : q c = false) :
    List.dropWhile q (c :: l) = c :: l := by
  rw [List.dropWhile_cons, h]
  simp

theorem fixPrev_comma_ws (p ws : Str) (hne : ws ≠ []) (hws : ∀ c ∈ ws, isPySpace c = true) :
    fixPrev (p ++ ',' :: ws) = p ++ ',' :: ws := by
  have hcomma : isPySpace ',' = false := by decide
  obtain ⟨c, t, hct⟩ : ∃ c t, ws.reverse = c :: t := by
    cases hwr : ws.reverse with
    | nil => exact absurd (by simpa using congrArg List.reverse hwr) hne
    | cons c t => exact ⟨c, t, rfl⟩
  have hcsp : isPySpace c = true :=
    hws c (List.mem_reverse.mp (by rw [hct]; exact List.mem_cons_self _ _))
  have hrev : (p ++ ',' :: ws).reverse = ws.reverse ++ [','] ++ p.reverse := by
    rw [List.reverse_append, List.reverse_cons]
  have hend : endsWithComma (p ++ ',' :: ws) = true := by
    rw [endsWithComma, stripWs, List.getLast?_reverse]
    obtain ⟨q, hq⟩ : ∃ q, List.dropWhile isPySpace (p ++ ',' :: ws) = q ++ ',' :: ws := by
      rw [List.dropWhile_append]
      split
      · exact ⟨[], by simp [List.dropWhile_cons, hcomma]⟩
      · exact ⟨List.dropWhile isPySpace p, rfl⟩
    rw [hq, List.reverse_append, List.reverse_cons, List.append_assoc,
      dropWhile_append_all isPySpace ws.reverse _ (fun x hx => hws x (List.mem_reverse.mp hx)),
      List.singleton_append, dropWhile_head_false isPySpace ',' _ hcomma]
    rfl
  have hcne : c ≠ ',' := by
    intro h
    rw [h] at hcsp
    exact absurd hcsp (by decide)
  have hX : List.dropWhile (fun x => x = ',') ((p ++ ',' :: ws).reverse)
      = (p ++ ',' :: ws).reverse := by
    rw [hrev, hct, List.cons_append, List.cons_append]
    exact dropWhile_head_false _ c _ (by simp [hcne])
  rw [fixPrev, if_pos hend, rstripCommas, hX, List.reverse_reverse]

theorem fixPrev_commas (p : Str) (n : Nat) (hn : 0 < n) :
    fixPrev (p ++ List.replicate n ',') = rstripCommas p := by
  have hcomma : isPySpace ',' = false := by decide
  obtain ⟨m, rfl⟩ : ∃ m, n = m + 1 := ⟨n - 1, (Nat.succ_pred_eq_of_pos hn).symm⟩
  have hrep : List.replicate (m + 1) ',' = ',' :: List.replicate m ',' := List.replicate_succ ',' m
  have hend : endsWithComma (p ++ List.replicate (m + 1) ',') = true := by
    rw [endsWithComma, stripWs, List.getLast?_reverse]
    obtain ⟨q, hq⟩ : ∃ q, List.dropWhile isPySpace (p ++ List.replicate (m + 1) ',')
        = q ++ List.replicate (m + 1) ',' := by
      rw [List.dropWhile_append]
      split
      · exact ⟨[], by rw [hrep, dropWhile_head_false isPySpace ',' _ hcomma]; rfl⟩
      · exact ⟨List.dropWhile isPySpace p, rfl⟩
    rw [hq, List.reverse_append, List.reverse_replicate, hrep, List.cons_append,
      dropWhile_head_false isPySpace ',' _ hcomma]
    rfl
  rw [fixPrev, if_pos hend, rstripCommas, rstripCommas, List.reverse_append,
    List.reverse_replicate,
    dropWhile_append_all _ (List.replicate (m + 1) ',') _
      (fun x hx => by rw [(List.eq_of_mem_replicate hx : x = ',')]; simp)]

/-! ### Claim theorems -/

/-- Claim C4 (amended): for a section whose lines are `pre ++ l :: post`
with `l` the first line containing `InstaMathInfo.plist`, the removal loop
strips exactly that one line and keeps all the others in order, except
that the immediately preceding line (the last of `pre`) may lose its
trailing commas. -/
theorem claim4_theorem (pre : List Str) (l : Str) (post : List Str)
    (hpre : ∀ x ∈ pre, containsSub plistName x = false)
    (hl : containsSub plistName l = true) :
    removeLine (pre ++ l :: post) = some (commaFixLast pre ++ post) ∧
      (commaFixLast pre ++ post).length + 1 = (pre ++ l :: post).length := by
  refine ⟨removeLine_spec pre l post hpre hl, ?_⟩
  simp [commaFixLast_length]
  omega

/-- Claim C4 witness: the amended statement evaluated on a concrete
section body. -/
theorem claim4_witness :
    removeLine (["\ta,".data] ++ "\tx InstaMathInfo.plist".data :: ["\x7d;".data])
      = some (commaFixLast ["\ta,".data] ++ ["\x7d;".data]) ∧
    (commaFixLast ["\ta,".data] ++ ["\x7d;".data]).length + 1
      = (["\ta,".data] ++ "\tx InstaMathInfo.plist".data :: ["\x7d;".data]).length :=
  claim4_theorem _ _ _ (by decide) (by decide)

/-- Claim C4 counterexample: when the preceding line ends with a comma the
loop does not merely drop the matched line (`eraseIdx`): it also edits the
preceding line, so "all other lines are kept" fails. -/
theorem claim4_counterexample :
    removeLine ["/* Copy Bundle Resources */ = \x7b".data, "\ta,".data,
        "\tx InstaMathInfo.plist".data, "\x7d;".data]
      ≠ some (List.eraseIdx ["/* Copy Bundle Resources */ = \x7b".data, "\ta,".data,
        "\tx InstaMathInfo.plist".data, "\x7d;".data] 2) := by
  decide

/-- Claim C7: the comma handling of lines 41-43.  When the removed line is
preceded by a line `p`, the result keeps `fixPrev p` in its place, where
`fixPrev` strips every trailing comma of the raw line exactly when the
stripped line ends with a comma; a line ending in a comma followed by
whitespace passes the test but is left unchanged; a line ending in several
commas loses them all; when the removed line is the first line, no other
line is edited. -/
theorem claim7_theorem :
    (∀ (p l : Str) (post : List Str), containsSub plistName p = false →
        containsSub plistName l = true →
        removeLine (p :: l :: post) = some (fixPrev p :: post)) ∧
    (∀ (l : Str) (post : List Str), containsSub plistName l = true →
        removeLine (l :: post) = some post) ∧
    (∀ p ws : Str, ws ≠ [] → (∀ c ∈ ws, isPySpace c = true) →
        fixPrev (p ++ ',' :: ws) = p ++ ',' :: ws) ∧
    (∀ (p : Str) (n : Nat), 0 < n → fixPrev (p ++ List.replicate n ',') = rstripCommas p) := by
  refine ⟨?_, ?_, fixPrev_comma_ws, fixPrev_commas⟩
  · intro p l post hp hl
    have h := removeLine_spec [p] l post (by simpa using hp) hl
    simpa [commaFixLast] using h
  · intro l post hl
    simpa [commaFixLast] using removeLine_spec [] l post (by simp) hl

/-- Claim C7 witness: the comma handling evaluated on concrete lines. -/
theorem claim7_witness :
    removeLine ("\ta,".data :: "\tx InstaMathInfo.plist".data :: [])
        = some (fixPrev "\ta,".data :: []) ∧
    fixPrev ("x".data ++ List.replicate 2 ',') = rstripCommas "x".data :=
  ⟨claim7_theorem.1 _ _ [] (by decide) (by decide), claim7_theorem.2.2.2 _ 2 (by decide)⟩

/-- Claim C1 (amended): every Copy Bundle Resources section that contains
`InstaMathInfo.plist` is rewritten by removing one line, and when the
section contains `InstaMathInfo.plist` on at most one of its lines, the
modified section text that replaces it no longer contains
`InstaMathInfo.plist`. -/
theorem claim1_theorem (sec : Str) (h : containsSub plistName sec = true) :
    ∃ ls, removeLine (splitLines sec) = some ls ∧
      ((splitLines sec).countP (fun x => containsSub plistName x) ≤ 1 →
        containsSub plistName (joinLines ls) = false) := by
  have hplne : plistName ≠ [] := by decide
  have hplnl : '\n' ∉ plistName := by decide
  have hjoin : containsSub plistName (joinLines (splitLines sec)) = true := by
    rw [joinLines_splitLines]; exact h
  rcases containsSub_joinLines hplne hplnl _ hjoin with ⟨l, hl, hcl⟩
  rcases exists_first_decomp (fun x => containsSub plistName x) _ ⟨l, hl, hcl⟩ with
    ⟨pre, l', post, heq, hpre, hl'⟩
  refine ⟨commaFixLast pre ++ post, by rw [heq]; exact removeLine_spec pre l' post hpre hl', ?_⟩
  intro hcount
  have hcnt : List.countP (fun x => containsSub plistName x) (splitLines sec)
      = List.countP (fun x => containsSub plistName x) pre
        + (List.countP (fun x => containsSub plistName x) post + 1) := by
    rw [heq, List.countP_append, List.countP_cons]
    simp [hl']
  rw [hcnt] at hcount
  have h0 : List.countP (fun x => containsSub plistName x) post = 0 := by omega
  have hpost : ∀ x ∈ post, containsSub plistName x = false := fun x hx => by
    simpa using List.countP_eq_zero.mp h0 x hx
  cases hres : containsSub plistName (joinLines (commaFixLast pre ++ post)) with
  | false => rfl
  | true =>
    rcases containsSub_joinLines hplne hplnl _ hres with ⟨x, hx, hcx⟩
    rcases List.mem_append.mp hx with hx1 | hx2
    · rw [commaFixLast_no_plist pre hpre x hx1] at hcx
      simp at hcx
    · rw [hpost x hx2] at hcx
      simp at hcx

/-- Claim C1 witness: the amended statement evaluated on a concrete
section with the plist on exactly one line. -/
theorem claim1_witness :
    containsSub plistName (joinLines ((removeLine (splitLines sectionOne)).getD [])) = false := by
  obtain ⟨ls, h1, h2⟩ := claim1_theorem sectionOne (by decide)
  rw [h1, Option.getD_some]
  exact h2 (by decide)

set_option maxRecDepth 200000 in
/-- Claim C1 counterexample: a section holding `InstaMathInfo.plist` on
two different lines.  After the run the written-back target file still
contains `InstaMathInfo.plist` inside a Copy Bundle Resources section. -/
theorem claim1_counterexample :
    ∃ c, (runScript fsTwo).fs pbxprojPath = some c ∧
      (findSections c).any (containsSub plistName) = true :=
  ⟨"/* Copy Bundle Resources */ = \x7b\n\tb InstaMathInfo.plist,\n\x7d;".data,
    by decide, by decide⟩

theorem splitOnSubF_ne_nil : ∀ (f : Nat) (s old : Str), splitOnSubF f s old ≠ [] := by
  intro f s old
  cases f with
  | zero => simp [splitOnSubF]
  | succ f =>
    by_cases ho : old = []
    · simp [splitOnSubF, ho]
    · cases s with
      | nil => simp [splitOnSubF, ho]
      | cons c t =>
        by_cases hp : old.isPrefixOf (c :: t) = true
        · simp [splitOnSubF, ho, hp]
        · cases h : splitOnSubF f t old with
          | nil => simp [splitOnSubF, ho, hp, h]
          | cons a r => simp [splitOnSubF, ho, hp, h]

theorem splitOnSubF_head_of : ∀ (f : Nat) (s old h : Str) (r : List Str),
    splitOnSubF f s old = h :: r → ∃ u, s = h ++ u := by
  intro f
  induction f with
  | zero =>
    intro s old h r heq
    simp only [splitOnSubF] at heq
    injection heq with h1 _
    exact ⟨[], by rw [← h1]; simp⟩
  | succ f ih =>
    intro s old h r heq
    by_cases ho : old = []
    · simp only [splitOnSubF, if_pos ho] at heq
      injection heq with h1 _
      exact ⟨[], by rw [← h1]; simp⟩
    · cases s with
      | nil =>
        simp only [splitOnSubF, if_neg ho] at heq
        injection heq with h1 _
        exact ⟨[], by rw [← h1]; simp⟩
      | cons c t =>
        by_cases hp : old.isPrefixOf (c :: t) = true
        · simp only [splitOnSubF, if_neg ho, if_pos hp] at heq
          injection heq with h1 _
          exact ⟨c :: t, by rw [← h1]; simp⟩
        · simp only [splitOnSubF, if_neg ho, if_neg hp] at heq
          cases hs : splitOnSubF f t old with
          | nil => exact absurd hs (splitOnSubF_ne_nil f t old)
          | cons a r' =>
            rw [hs] at heq
            injection heq with h1 h2
            rcases ih t old a r' hs with ⟨u, hu⟩
            exact ⟨u, by rw [← h1, hu]; simp⟩

theorem replaceAllF_eq_joinWith : ∀ (f : Nat) (s old new : Str), old ≠ [] →
    replaceAllF f s old new = joinWith new (splitOnSubF f s old) := by
  intro f
  induction f with
  | zero => intro s old new _; simp [replaceAllF, splitOnSubF, joinWith]
  | succ f ih =>
    intro s old new ho
    cases s with
    | nil => simp [replaceAllF, splitOnSubF, ho, joinWith]
    | cons c t =>
      by_cases hp : old.isPrefixOf (c :: t) = true
      · simp only [replaceAllF, splitOnSubF, if_neg ho, if_pos hp]
        rw [ih _ old new ho]
        cases hs : splitOnSubF f (List.drop old.length (c :: t)) old with
        | nil => exact absurd hs (splitOnSubF_ne_nil _ _ _)
        | cons a r => simp [joinWith]
      · simp only [replaceAllF, splitOnSubF, if_neg ho, if_neg hp]
        rw [ih t old new ho]
        cases hs : splitOnSubF f t old with
        | nil => exact absurd hs (splitOnSubF_ne_nil _ _ _)
        | cons a r =>
          cases r with
          | nil => simp [joinWith]
          | cons b r' => simp [joinWith, List.cons_append]

theorem splitOnSubF_parts : ∀ (f : Nat) (s old : Str), old ≠ [] → s.length ≤ f →
    ∀ p ∈ splitOnSubF f s old, containsSub old p = false := by
  intro f
  induction f with
  | zero =>
    intro s old ho hlen p hp
    have hs : s = [] := List.eq_nil_of_length_eq_zero (Nat.le_zero.mp hlen)
    subst hs
    simp only [splitOnSubF, List.mem_singleton] at hp
    subst hp
    exact containsSub_nil_of_ne ho
  | succ f ih =>
    intro s old ho hlen p hp
    have hol : 0 < old.length := List.length_pos.mpr ho
    cases s with
    | nil =>
      simp only [splitOnSubF, if_neg ho, List.mem_singleton] at hp
      subst hp
      exact containsSub_nil_of_ne ho
    | cons c t =>
      have hlt : t.length ≤ f := by
        simp only [List.length_cons] at hlen
        omega
      by_cases hpre : old.isPrefixOf (c :: t) = true
      · simp only [splitOnSubF, if_neg ho, if_pos hpre, List.mem_cons] at hp
        rcases hp with rfl | hp
        · exact containsSub_nil_of_ne ho
        · refine ih _ old ho ?_ p hp
          rw [List.length_drop]
          simp only [List.length_cons]
          omega
      · simp only [splitOnSubF, if_neg ho, if_neg hpre] at hp
        cases hs : splitOnSubF f t old with
        | nil => exact absurd hs (splitOnSubF_ne_nil _ _ _)
        | cons a r =>
          rw [hs] at hp
          rcases List.mem_cons.mp hp with rfl | hp'
          · rcases splitOnSubF_head_of f t old a r hs with ⟨u, hu⟩
            have ha : containsSub old a = false :=
              ih t old ho hlt a (by rw [hs]; exact List.mem_cons_self _ _)
            have hnp : old.isPrefixOf (c :: a) = false := by
              cases hq : old.isPrefixOf (c :: a) with
              | false => rfl
              | true =>
                rcases (isPrefixOf_iff_exists old (c :: a)).mp hq with ⟨w, hw⟩
                have hct : old.isPrefixOf (c :: t) = true := by
                  apply (isPrefixOf_iff_exists _ _).mpr
                  exact ⟨w ++ u, by rw [hu, ← List.cons_append, hw, List.append_assoc]⟩
                exact absurd hct hpre
            rw [containsSub, hnp, ha]
            rfl
          · exact ih t old ho hlt p (by rw [hs]; exact List.mem_cons_of_mem _ hp')

/-- Claim C8: `new_content.replace(section, modified_section)` on line 49
is a global replacement: the content decomposes into the chunks between
the non-overlapping occurrences of the section text, none of which still
contains it, and the result splices the modified text at every occurrence;
the patch step applies exactly this replacement to the accumulated
content. -/
theorem claim8_theorem (s old new : Str) (ho : old ≠ []) :
    replaceAll s old new = joinWith new (splitOnSub s old) ∧
    (∀ p ∈ splitOnSub s old, containsSub old p = false) ∧
    (∀ (acc : Str × Bool × List Str) (ls : List Str),
        containsSub plistName old = true → removeLine (splitLines old) = some ls →
        (stepSection acc old).1 = joinWith (joinLines ls) (splitOnSub acc.1 old)) := by
  refine ⟨replaceAllF_eq_joinWith _ s old new ho,
    splitOnSubF_parts _ s old ho (Nat.le_succ _), ?_⟩
  intro acc ls hc hrm
  simp only [stepSection, hc, if_pos, hrm]
  rw [replaceAll, splitOnSub]
  exact replaceAllF_eq_joinWith _ acc.1 old (joinLines ls) ho

/-- Claim C8 witness: the replacement characterization evaluated on a
string with two occurrences of the pattern. -/
theorem claim8_witness :
    replaceAll "xx InstaMathInfo.plist yy InstaMathInfo.plist".data "InstaMathInfo.plist".data "Q".data
      = joinWith "Q".data
          (splitOnSub "xx InstaMathInfo.plist yy InstaMathInfo.plist".data "InstaMathInfo.plist".data) :=
  (claim8_theorem _ _ _ (by decide)).1

theorem pbx_ne_backup : pbxprojPath ≠ backupPath := by decide

theorem backup_ne_pbx : backupPath ≠ pbxprojPath := by decide

theorem foldl_stepSection_id : ∀ (secs : List Str) (acc : Str × Bool × List Str),
    (∀ s ∈ secs, containsSub plistName s = false) → secs.foldl stepSection acc = acc := by
  intro secs
  induction secs with
  | nil => intro acc _; rfl
  | cons a rest ih =>
    intro acc hall
    rw [List.foldl_cons]
    have ha : containsSub plistName a = false := hall a (List.mem_cons_self _ _)
    rw [show stepSection acc a = acc by simp [stepSection, ha]]
    exact ih acc (fun y hy => hall y (List.mem_cons_of_mem _ hy))

/-- Claim C2: the run exits with a non-zero status exactly when the file
at the hardcoded path does not exist; in that case the only output is the
error message and the file system is untouched, and whenever the file
exists the run ends with exit status 0. -/
theorem claim2_theorem (fs : Str → Option Str) :
    ((runScript fs).exitCode ≠ 0 ↔ fs pbxprojPath = none) ∧
    (fs pbxprojPath = none →
      (runScript fs).stdout = [errMsg] ∧ (runScript fs).fs = fs) ∧
    (∀ c, fs pbxprojPath = some c → (runScript fs).exitCode = 0) := by
  cases h : fs pbxprojPath with
  | none => simp [runScript, h]
  | some c =>
    have he : (runScript fs).exitCode = 0 := by
      by_cases hm : (patchRun c).2.1 = true
      · simp [runScript, h, hm]
      · simp [runScript, h, hm]
    refine ⟨⟨fun hx => absurd he hx, fun hn => absurd hn (by simp)⟩,
      fun hn => absurd hn (by simp),
      fun c' _ => he⟩

/-- Claim C2 witness: the two branches evaluated on concrete file
systems. -/
theorem claim2_witness :
    (runScript fsNone).stdout = [errMsg] ∧ (runScript fsNone).fs = fsNone ∧
      (runScript fsOne).exitCode = 0 :=
  ⟨((claim2_theorem fsNone).2.1 rfl).1, ((claim2_theorem fsNone).2.1 rfl).2,
    (claim2_theorem fsOne).2.2 sectionOne (by decide)⟩

/-- Claim C3: for every existing input file, after the run the backup path
holds exactly the original content of the target file, never the modified
content. -/
theorem claim3_theorem (fs : Str → Option Str) (content : Str)
    (h : fs pbxprojPath = some content) :
    (runScript fs).fs backupPath = some content := by
  by_cases hm : (patchRun content).2.1 = true
  · simp [runScript, h, hm, backup_ne_pbx]
  · simp [runScript, h, hm]

/-- Claim C3 witness: the backup evaluated on a concrete file system. -/
theorem claim3_witness : (runScript fsOne).fs backupPath = some sectionOne :=
  claim3_theorem fsOne sectionOne (by decide)

/-- Claim C5: a run never creates or modifies any path other than the
hardcoded target path and its `.bak` backup. -/
theorem claim5_theorem (fs : Str → Option Str) (p : Str)
    (h1 : p ≠ pbxprojPath) (h2 : p ≠ backupPath) :
    (runScript fs).fs p = fs p := by
  cases h : fs pbxprojPath with
  | none => simp [runScript, h]
  | some c =>
    by_cases hm : (patchRun c).2.1 = true
    · simp [runScript, h, hm, h1, h2]
    · simp [runScript, h, hm, h2]

/-- Claim C5 witness: an unrelated path evaluated before and after a
run. -/
theorem claim5_witness : (runScript fsOne).fs "/tmp/other".data = fsOne "/tmp/other".data :=
  claim5_theorem fsOne _ (by decide) (by decide)

/-- Claim C6: when no Copy Bundle Resources section of the existing input
contains `InstaMathInfo.plist`, the target file is byte-for-byte
unchanged, the backup is still created, and the run prints the backup
message followed by "No changes were made". -/
theorem claim6_theorem (fs : Str → Option Str) (content : Str)
    (h : fs pbxprojPath = some content)
    (hns : ∀ sec ∈ findSections content, containsSub plistName sec = false) :
    (runScript fs).fs pbxprojPath = some content ∧
    (runScript fs).fs backupPath = some content ∧
    (runScript fs).stdout = [createdMsg, noChangesMsg] ∧
    (runScript fs).exitCode = 0 := by
  have hp : patchRun content = (content, false, []) :=
    foldl_stepSection_id (findSections content) _ hns
  simp [runScript, h, hp, pbx_ne_backup]

/-- Claim C6 witness: a target file without any section, evaluated
concretely. -/
theorem claim6_witness :
    (runScript fsPlain).fs pbxprojPath = some "hello world".data ∧
    (runScript fsPlain).fs backupPath = some "hello world".data ∧
    (runScript fsPlain).stdout = [createdMsg, noChangesMsg] ∧
    (runScript fsPlain).exitCode = 0 :=
  claim6_theorem fsPlain _ (by decide) (by decide)

/-- Claim C9: the run is deterministic: two runs from states agreeing on
the existence status and content of the file at the hardcoded path print
the same output, exit with the same status, and leave the same final
content at the target path; they write the same backup content whenever
the file exists, and when it does not exist neither run writes anything at
all. -/
theorem claim9_theorem (fs fs' : Str → Option Str) (h : fs pbxprojPath = fs' pbxprojPath) :
    (runScript fs).stdout = (runScript fs').stdout ∧
    (runScript fs).exitCode = (runScript fs').exitCode ∧
    (runScript fs).fs pbxprojPath = (runScript fs').fs pbxprojPath ∧
    (∀ c, fs pbxprojPath = some c →
      (runScript fs).fs backupPath = (runScript fs').fs backupPath) ∧
    (fs pbxprojPath = none → (runScript fs).fs = fs ∧ (runScript fs').fs = fs') := by
  cases hc : fs pbxprojPath with
  | none =>
    have hc' : fs' pbxprojPath = none := by rw [← h, hc]
    simp [runScript, hc, hc']
  | some c =>
    have hc' : fs' pbxprojPath = some c := by rw [← h, hc]
    by_cases hm : (patchRun c).2.1 = true
    · simp [runScript, hc, hc', hm, backup_ne_pbx]
    · simp [runScript, hc, hc', hm, pbx_ne_backup]

/-- Claim C9 witness: two file systems agreeing at the target path but
differing elsewhere produce the same output and final target content. -/
theorem claim9_witness :
    (runScript fsOne).stdout = (runScript fsOne').stdout ∧
    (runScript fsOne).fs pbxprojPath = (runScript fsOne').fs pbxprojPath := by
  have h := claim9_theorem fsOne fsOne' (by decide)
  exact ⟨h.1, h.2.2.1⟩
